import Mathlib

/-!
# noisemachine.c : a shallow embedding

`src/noisemachine.c` is a single `main` function.  The embedding splits it the
way the source is laid out:

* the control skeleton of `main` (argument validation, the calls into the
  sound-file library, the write loop and the `exit:` label), with the answers
  of the external collaborators (`atoi`, `psf_*`) given by an environment;
* the signal pipeline (white / red / pink generators, peak normaliser), over an
  arbitrary linearly ordered field standing for exact arithmetic on `double`,
  with heap buffers as lists, checked indexing (`none` = access outside the
  allocation) and the initial contents of a `malloc` block given as an input.
  The narrowing of a `double` to a `float` on line 233 is not exact: it is an
  input of the pipeline (`toFloat`), and `roundFloat32` is the IEEE 754
  binary32 conversion (round to nearest, ties to even) the runs are evaluated
  with. A stored `float` is a finite value or a non-finite one (`FloatVal`).
-/

namespace NoiseMachine

/-! ## Machine integers -/

/-- Value of a C `int` (32 bit, two's complement) holding the integer `x`
after wrap-around. -/
def wrapInt32 (x : Int) : Int := (x + 2 ^ 31) % 2 ^ 32 - 2 ^ 31

/-- Line 112: `totalsamples = outprops.srate * dur;` — both operands are `int`,
the product is formed in `int` and only then widened to `long`. -/
def totalsamples (srate dur : Int) : Int := wrapInt32 (srate * dur)

/-! ## Control skeleton of `main` -/

/-- The texts `main` prints, by the place they are printed at. -/
inductive Msg
  | banner | usage | badType | badDuration | noPortsf | badRate | badFormat
  | generating | createFailed | writeFailed | generated | closeFailed
  deriving DecidableEq, Repr

/-- Observable actions of `main`, in program order. -/
inductive Event
  | printf (m : Msg)
  | psf_init
  | malloc
  | gsl_rng_alloc
  | generate
  | psf_sndCreate
  | psf_sndWriteFloatFrames (i : Nat)
  | psf_sndClose
  | free
  | gsl_rng_free
  | psf_finish
  deriving DecidableEq, Repr

/-- Results of the command-line conversions: `argc` and the three `atoi`
values. -/
structure Args where
  argc : Int
  alpha : Int
  dur : Int
  srate : Int

/-- Answers of the sound-file library during one run. -/
structure Env where
  /-- return value of `psf_init()` (nonzero = failure) -/
  psf_init : Int
  /-- whether `psf_getFormatExt` returned something else than `PSF_FMT_UNKNOWN` -/
  formatKnown : Bool
  /-- descriptor returned by `psf_sndCreate` -/
  psf_sndCreate : Int
  /-- return value of the call `psf_sndWriteFloatFrames (ofd, samples + i, 1)` -/
  psf_sndWriteFloatFrames : Nat → Int
  /-- return value of `psf_sndClose` -/
  psf_sndClose : Int

/-- What a run of `main` amounts to: the process exit status and the actions
performed. -/
structure Outcome where
  status : Int
  trace : List Event
  deriving DecidableEq, Repr

/-- Lines 244-251: the write loop, from index `i` with `n` iterations left;
a short write prints the error and leaves the loop. -/
def writeLoop (env : Env) : Nat → Nat → List Event
  | _, 0 => []
  | i, n + 1 =>
    if env.psf_sndWriteFloatFrames i ≠ 1 then
      [Event.psf_sndWriteFloatFrames i, Event.printf Msg.writeFailed]
    else
      Event.psf_sndWriteFloatFrames i :: writeLoop env (i + 1) n

/-- Lines 256-267: the `exit:` label. `ofd` is the descriptor held when the
label is reached. -/
def exitLabel (env : Env) (ofd : Int) : List Event :=
  (if ofd ≥ 0 then
    (if env.psf_sndClose ≠ 0 then [Event.psf_sndClose, Event.printf Msg.closeFailed]
     else [Event.psf_sndClose])
   else []) ++
  [Event.free, Event.free, Event.free, Event.gsl_rng_free, Event.psf_finish]

/-- Control skeleton of `main` (lines 31-268). The generation stage (lines
124-234) appears as the single action `generate`; it is embedded in detail
below. The error branches before line 109 `return 1`; after that no `return`
is executed, and control that reaches the closing brace of `main` (C99 and
later, which the `for (int i ...` loops require) terminates the process with
status 0. -/
def main (env : Env) (a : Args) : Outcome :=
  if a.argc ≠ 5 then
    ⟨1, [Event.printf Msg.banner, Event.printf Msg.usage]⟩
  else if a.alpha < 0 ∨ a.alpha > 2 then
    ⟨1, [Event.printf Msg.banner, Event.printf Msg.badType]⟩
  else if a.dur < 0 ∨ a.dur > 30 then
    ⟨1, [Event.printf Msg.banner, Event.printf Msg.badDuration]⟩
  else if env.psf_init ≠ 0 then
    ⟨1, [Event.printf Msg.banner, Event.psf_init, Event.printf Msg.noPortsf]⟩
  else if a.srate ≤ 0 then
    ⟨1, [Event.printf Msg.banner, Event.psf_init, Event.printf Msg.badRate]⟩
  else if env.formatKnown = false then
    ⟨1, [Event.printf Msg.banner, Event.psf_init, Event.printf Msg.badFormat]⟩
  else
    let n := totalsamples a.srate a.dur
    let upToCreate : List Event :=
      [Event.printf Msg.banner, Event.psf_init, Event.printf Msg.generating,
       Event.malloc, Event.malloc, Event.gsl_rng_alloc, Event.generate,
       Event.malloc, Event.psf_sndCreate]
    if env.psf_sndCreate < 0 then
      ⟨0, upToCreate ++ [Event.printf Msg.createFailed] ++ exitLabel env env.psf_sndCreate⟩
    else
      ⟨0, upToCreate ++ writeLoop env 0 n.toNat ++ [Event.printf Msg.generated]
            ++ exitLabel env env.psf_sndCreate⟩

/-- A run did work for the request: it allocated a buffer, generated samples
or created the output file. -/
def didWork (o : Outcome) : Prop :=
  Event.malloc ∈ o.trace ∨ Event.generate ∈ o.trace ∨ Event.psf_sndCreate ∈ o.trace

instance (o : Outcome) : Decidable (didWork o) := by
  unfold didWork; infer_instance

/-- The request was rejected: exit status 1 and no allocation, generation or
file creation. -/
def rejected (o : Outcome) : Prop := o.status = 1 ∧ ¬ didWork o

instance (o : Outcome) : Decidable (rejected o) := by
  unfold rejected; infer_instance

/-! ## Heap buffers and loops -/

section Pipeline

variable {α : Type}

/-- Outcome `none` of an embedded statement means the statement touched memory
outside the block it indexes. -/
def rd (a : List α) (i : Nat) : Option α := a[i]?

/-- Checked store `a[i] = v`. -/
def wr (a : List α) (i : Nat) (v : α) : Option (List α) :=
  if i < a.length then some (a.set i v) else none

/-- Call `malloc (n * sizeof (T))`: a block of `n` cells holding whatever the
allocator hands back; `heap j` is the initial content of cell `j`. -/
def malloc (heap : Nat → α) (n : Nat) : List α := (List.range n).map heap

/-- Loop `for (int i = lo; i < lo + n; i++) body`, started at `i` with `n`
iterations left. -/
def forLoop {σ : Type} (body : Nat → σ → Option σ) : Nat → Nat → σ → Option σ
  | _, 0, s => some s
  | i, n + 1, s => (body i s).bind (forLoop body (i + 1) n)

/-- The variables the generators work on: the two heap blocks and the number
of values taken from the random number generator `r` so far. -/
structure Gen (α : Type) where
  samples_dbl : List α
  samples_abs : List α
  calls : Nat

/-- A stored `float`: a finite value, or a non-finite one (an infinity or a
NaN). -/
inductive FloatVal (α : Type) where
  | finite (x : α)
  | nonfinite
  deriving DecidableEq, Repr

/-- Initial contents of the blocks of one run: the three `malloc` blocks
(`samples_dbl`, `samples_abs` and the `float` block `samples`) and the
variable-length array `fftdata`. -/
structure Heap (α : Type) where
  dbl : Nat → α
  abs : Nat → α
  out : Nat → FloatVal α
  fft : Nat → α

variable [LinearOrderedField α]

/-! ## Library functions (GSL)

`gsl_ran_gaussian (r, sigma)` is an input: `gauss k sigma` is the value the
`k`-th call on `r` returns when asked for standard deviation `sigma`.
`sqrt` is the C library square root, also an input of the embedding. -/

/-- Library function `gsl_stats_max (data, 1, n)`, after its reference
implementation: starts from `data[0]` and scans `data[0..n)`
keeping the larger value. -/
def gsl_stats_max (data : List α) (n : Nat) : Option α :=
  (rd data 0).bind fun m0 =>
    forLoop (fun i m => (rd data i).map fun xi => if xi > m then xi else m) 0 n m0

/-- Library function `gsl_stats_mean (data, 1, n)`, by its documented value:
the arithmetic mean of `data[0..n)`. -/
def gsl_stats_mean (data : List α) (n : Nat) : α := (data.take n).sum / (n : α)

/-- Library function `gsl_stats_sd (data, 1, n)`, by its documented value:
the sample standard deviation of `data[0..n)`,
the square root of the sum of squared deviations from the mean over `n - 1`. -/
def gsl_stats_sd (sqrt : α → α) (data : List α) (n : Nat) : α :=
  sqrt ((((data.take n).map fun x => (x - gsl_stats_mean data n) ^ 2).sum) / ((n : α) - 1))

/-! ## Generators -/

/-- Lines 126-131, loop body of the white generator. -/
def whiteStep (gauss : Nat → α → α) (i : Nat) (s : Gen α) : Option (Gen α) := do
  let dbl ← wr s.samples_dbl i (gauss s.calls 1)
  let x ← rd dbl i
  let abs ← wr s.samples_abs i |x|
  pure ⟨dbl, abs, s.calls + 1⟩

/-- Lines 124-132: white noise. -/
def white (gauss : Nat → α → α) (N : Nat) (s : Gen α) : Option (Gen α) :=
  forLoop (whiteStep gauss) 0 N s

/-- Lines 138-143, loop body of the red generator. -/
def redStep (gauss : Nat → α → α) (sigma : α) (i : Nat) (s : Gen α) : Option (Gen α) := do
  let prev ← rd s.samples_dbl (i - 1)
  let dbl ← wr s.samples_dbl i (prev + gauss s.calls sigma)
  let x ← rd dbl i
  let abs ← wr s.samples_abs i |x|
  pure ⟨dbl, abs, s.calls + 1⟩

/-- Lines 134-144: red noise. The store to `samples_dbl[0]` comes before the
loop, which starts at index 1. -/
def red (sqrt : α → α) (gauss : Nat → α → α) (srate : Int) (N : Nat) (s : Gen α) :
    Option (Gen α) := do
  let sigma := sqrt (1 / (srate : α))
  let dbl ← wr s.samples_dbl 0 (gauss s.calls sigma)
  forLoop (redStep gauss sigma) 1 (N - 1) ⟨dbl, s.samples_abs, s.calls + 1⟩

/-- Lines 149-152, loop body: white draws into `samples_dbl` only. -/
def pinkDrawStep (gauss : Nat → α → α) (i : Nat) (s : Gen α) : Option (Gen α) := do
  let dbl ← wr s.samples_dbl i (gauss s.calls 1)
  pure ⟨dbl, s.samples_abs, s.calls + 1⟩

/-- Lines 160-164, loop body: `REAL (fftdata, i) = samples_dbl[i]`,
`IMAG (fftdata, i) = 0.0`, with `REAL (z, i) = z[2 i]`, `IMAG (z, i) = z[2 i + 1]`. -/
def packStep (samples_dbl : List α) (i : Nat) (z : List α) : Option (List α) := do
  let x ← rd samples_dbl i
  let z1 ← wr z (2 * i) x
  wr z1 (2 * i + 1) 0

/-- Lines 174-182: the midpoint of the spectrum. -/
def points (N : Nat) : Nat := if N % 2 ≠ 0 then N / 2 + 1 else N / 2

/-- One bin of the shaping loops: `REAL (fftdata, i) /= sqrt (r)` followed by
`IMAG (fftdata, i) /= sqrt (r)`. -/
def scaleBin (sqrt : α → α) (r : Nat) (i : Nat) (z : List α) : Option (List α) := do
  let re ← rd z (2 * i)
  let z1 ← wr z (2 * i) (re / sqrt (r : α))
  let im ← rd z1 (2 * i + 1)
  wr z1 (2 * i + 1) (im / sqrt (r : α))

/-- Lines 184-198: the two shaping loops, `sqrt (i + 1)` below the midpoint and
`sqrt (totalsamples - i)` from the midpoint on. -/
def shape (sqrt : α → α) (N : Nat) (z : List α) : Option (List α) := do
  let z1 ← forLoop (fun i z => scaleBin sqrt (i + 1) i z) 0 (points N) z
  forLoop (fun i z => scaleBin sqrt (N - i) i z) (points N) (N - points N) z1

/-- Lines 208-211, loop body: `samples_dbl[i] = REAL (fftdata, i)`. -/
def unpackStep (z : List α) (i : Nat) (s : Gen α) : Option (Gen α) := do
  let x ← rd z (2 * i)
  let dbl ← wr s.samples_dbl i x
  pure ⟨dbl, s.samples_abs, s.calls⟩

/-- Lines 217-221, loop body of the re-normalisation. -/
def renormStep (pink_mean pink_std : α) (i : Nat) (s : Gen α) : Option (Gen α) := do
  let x ← rd s.samples_dbl i
  let dbl ← wr s.samples_dbl i ((x - pink_mean) / pink_std)
  let y ← rd dbl i
  let abs ← wr s.samples_abs i |y|
  pure ⟨dbl, abs, s.calls⟩

/-- Lines 213-221: mean and standard deviation of the buffer, then the
re-normalisation loop. -/
def renormalise (sqrt : α → α) (N : Nat) (s : Gen α) : Option (Gen α) :=
  let pink_mean := gsl_stats_mean s.samples_dbl N
  let pink_std := gsl_stats_sd sqrt s.samples_dbl N
  forLoop (renormStep pink_mean pink_std) 0 N s

/-- Lines 146-222: pink noise. `fwd` and `inv` are the library transforms
`gsl_fft_complex_forward` and `gsl_fft_complex_inverse` on the packed array;
the allocation of their wavetable and workspace is not part of the embedding. -/
def pink (sqrt : α → α) (gauss : Nat → α → α) (fwd inv : List α → List α)
    (fft : Nat → α) (N : Nat) (s : Gen α) : Option (Gen α) := do
  let s1 ← forLoop (pinkDrawStep gauss) 0 N s
  let z0 ← forLoop (packStep s1.samples_dbl) 0 N (malloc fft (2 * N))
  let z1 ← shape sqrt N (fwd z0)
  let s2 ← forLoop (unpackStep (inv z1)) 0 N s1
  renormalise sqrt N s2

/-! ## Normaliser and sample conversion -/

/-- The exponent of the binary32 spacing at magnitude `a > 0`: the `e` with
`2 ^ (e + 23) ≤ a < 2 ^ (e + 24)`, not below -149 (the spacing of the
subnormal values). The search starts at `e` and takes at most `k` steps. -/
def floatExp : Nat → α → Int → Int
  | 0, _, e => e
  | k + 1, a, e =>
    if a < 2 ^ (e + 23) then (if e ≤ -149 then e else floatExp k a (e - 1))
    else if (2 : α) ^ (e + 24) ≤ a then floatExp k a (e + 1)
    else e

/-- Rounding to the nearest integer, a tie going to the even one. -/
def roundEven [FloorRing α] (r : α) : Int :=
  if r - (⌊r⌋ : α) < 1 / 2 then ⌊r⌋
  else if 1 / 2 < r - (⌊r⌋ : α) then ⌊r⌋ + 1
  else if ⌊r⌋ % 2 = 0 then ⌊r⌋ else ⌊r⌋ + 1

/-- Conversion `(float) x` of a finite `double` by IEEE 754 binary32, round to
nearest with ties to even: the magnitude is rounded to a multiple of the
spacing `2 ^ e` at its exponent; a result of `2 ^ 128` or more is an infinity. -/
def roundFloat32 [FloorRing α] (x : α) : FloatVal α :=
  if x = 0 then FloatVal.finite 0
  else
    let q : α := 2 ^ floatExp 300 |x| 0
    let y : α := (roundEven (|x| / q) : α) * q
    if 2 ^ 128 ≤ y then FloatVal.nonfinite
    else if x < 0 then FloatVal.finite (-y) else FloatVal.finite y

/-- Line 233, the value stored: `(float) x / max` narrowed to the `float` cell.
The cast binds first, so `x` is narrowed, the quotient by the `double` `max` is
formed in `double` (exactly, as all `double` arithmetic here), and the store
narrows again. A quotient by zero, and any quotient of an infinity, is an
infinity or a NaN. -/
def convertCell (toFloat : α → FloatVal α) (max : α) (x : α) : FloatVal α :=
  match toFloat x with
  | FloatVal.nonfinite => FloatVal.nonfinite
  | FloatVal.finite f => if max = 0 then FloatVal.nonfinite else toFloat (f / max)

/-- Lines 231-234, loop body: `samples[i] = (float) samples_dbl[i] / max`. -/
def convertStep (toFloat : α → FloatVal α) (samples_dbl : List α) (max : α) (i : Nat)
    (samples : List (FloatVal α)) : Option (List (FloatVal α)) := do
  let x ← rd samples_dbl i
  wr samples i (convertCell toFloat max x)

/-- Lines 224-234: the peak is read from `samples_abs`, the output block is
allocated and filled. -/
def normalise (toFloat : α → FloatVal α) (out : Nat → FloatVal α) (N : Nat) (s : Gen α) :
    Option (List (FloatVal α)) := do
  let max ← gsl_stats_max s.samples_abs N
  forLoop (convertStep toFloat s.samples_dbl max) 0 N (malloc out N)

/-- Lines 111-222 for `totalsamples = N`: the two blocks are allocated and the
generator selected by `alpha` runs on them. -/
def generate (sqrt : α → α) (gauss : Nat → α → α) (fwd inv : List α → List α)
    (heap : Heap α) (alpha : Int) (srate : Int) (N : Nat) : Option (Gen α) :=
  let s0 : Gen α := ⟨malloc heap.dbl N, malloc heap.abs N, 0⟩
  if alpha = 0 then white gauss N s0
  else if alpha = 2 then red sqrt gauss srate N s0
  else pink sqrt gauss fwd inv heap.fft N s0

/-- Lines 111-234 for `totalsamples = N`: generation, then normalisation. The
result is the block `samples` handed to the write loop. -/
def pipeline (sqrt : α → α) (toFloat : α → FloatVal α) (gauss : Nat → α → α)
    (fwd inv : List α → List α) (heap : Heap α) (alpha : Int) (srate : Int) (N : Nat) :
    Option (List (FloatVal α)) := do
  let s ← generate sqrt gauss fwd inv heap alpha srate N
  normalise toFloat heap.out N s

/-- Invariant of the red loop before iteration `i`: both blocks keep their
length, `i` values have been drawn, and every cell below `i` holds the partial
sum of the draws. -/
def RedInv (gauss : Nat → α → α) (sigma : α) (N : Nat) (i : Nat) (s : Gen α) : Prop :=
  s.samples_dbl.length = N ∧ s.samples_abs.length = N ∧ s.calls = i ∧
  ∀ k, k < i → s.samples_dbl[k]? = some (∑ j in Finset.range (k + 1), gauss j sigma)

end Pipeline

/-- A sound-file library that answers every call with success; the descriptor
handed out is 3. -/
def okEnv : Env := ⟨0, true, 3, fun _ => 1, 0⟩

/-- A sound-file library whose `psf_sndCreate` fails with descriptor -1. -/
def noCreateEnv : Env := ⟨0, true, -1, fun _ => 1, 0⟩

/-- A sound-file library whose first frame write is short. -/
def noWriteEnv : Env := ⟨0, true, 3, fun _ => 0, 0⟩

/-! # Theorems -/

/-! ## Memory and loop rules -/

section Rules

variable {α : Type}

theorem rd_eq (a : List α) (i : Nat) : rd a i = a[i]? := rfl

theorem malloc_length (heap : Nat → α) (n : Nat) : (malloc heap n).length = n := by
  simp [malloc]

/-- Invariant rule for `forLoop`: an invariant that holds on entry and is
carried by every iteration (each of which returns) holds when the loop ends,
and the loop returns. -/
theorem forLoop_inv {σ : Type} (body : Nat → σ → Option σ) (P : Nat → σ → Prop) :
    ∀ (n lo : Nat) (s : σ), P lo s →
      (∀ i t, lo ≤ i → i < lo + n → P i t → ∃ t', body i t = some t' ∧ P (i + 1) t') →
      ∃ s', forLoop body lo n s = some s' ∧ P (lo + n) s' := by
  intro n
  induction n with
  | zero =>
    intro lo s h0 _
    exact ⟨s, rfl, by simpa using h0⟩
  | succ n ih =>
    intro lo s h0 hstep
    obtain ⟨t, ht, hP⟩ := hstep lo s (Nat.le_refl lo) (by omega) h0
    obtain ⟨s', hs', hP'⟩ := ih (lo + 1) t hP (fun i u hi1 hi2 hu =>
      hstep i u (by omega) (by omega) hu)
    refine ⟨s', ?_, ?_⟩
    · simp [forLoop, ht, hs']
    · have e : lo + (n + 1) = lo + 1 + n := by omega
      rw [e]; exact hP'

/-- Preservation rule for `forLoop`: a property kept by every iteration that
returns is kept by a loop that returns. -/
theorem forLoop_preserves {σ : Type} (body : Nat → σ → Option σ) (Q : σ → Prop)
    (hstep : ∀ i s t, Q s → body i s = some t → Q t) :
    ∀ (n lo : Nat) (s t : σ), Q s → forLoop body lo n s = some t → Q t := by
  intro n
  induction n with
  | zero =>
    intro lo s t hs h
    simp only [forLoop, Option.some.injEq] at h
    exact h ▸ hs
  | succ n ih =>
    intro lo s t hs h
    simp only [forLoop] at h
    cases hb : body lo s with
    | none => simp [hb] at h
    | some u =>
      rw [hb] at h
      exact ih (lo + 1) u t (hstep lo s u hs hb) h

end Rules

/-! ## Narrowing to `float` -/

section Narrowing

variable {α : Type} [LinearOrderedField α]

/-- The exponent search returns the exponent of a magnitude in the normal
range, from any start within `k` steps of it. -/
theorem floatExp_eq (a : α) (e0 : ℤ) (h1 : (2 : α) ^ (e0 + 23) ≤ a)
    (h2 : a < (2 : α) ^ (e0 + 24)) (h3 : -149 ≤ e0) :
    ∀ (k : Nat) (e : ℤ), (e - e0).natAbs ≤ k → floatExp k a e = e0 := by
  have two : (1 : α) ≤ 2 := by norm_num
  intro k
  induction k with
  | zero =>
    intro e he
    simp only [floatExp]
    omega
  | succ k ih =>
    intro e he
    rcases lt_trichotomy e e0 with hlt | heq | hgt
    · have a1 : (2 : α) ^ (e + 24) ≤ a :=
        le_trans (zpow_le_zpow_right₀ two (by omega)) h1
      have a2 : ¬ a < (2 : α) ^ (e + 23) :=
        not_lt.mpr (le_trans (zpow_le_zpow_right₀ two (by omega)) a1)
      simp only [floatExp, a2, a1, if_false, if_true]
      exact ih (e + 1) (by omega)
    · subst heq
      simp only [floatExp, not_lt.mpr h1, not_le.mpr h2, if_false]
    · have a1 : a < (2 : α) ^ (e + 23) :=
        lt_of_lt_of_le h2 (zpow_le_zpow_right₀ two (by omega))
      have a2 : ¬ e ≤ -149 := by omega
      simp only [floatExp, a1, a2, if_false, if_true]
      exact ih (e - 1) (by omega)

variable [FloorRing α]

/-- Away from a tie, `roundEven` returns the integer within half a unit. -/
theorem roundEven_eq (r : α) (n : ℤ) (h1 : (n : α) - 1 / 2 < r)
    (h2 : r < (n : α) + 1 / 2) : roundEven r = n := by
  by_cases hr : (n : α) ≤ r
  · have hf : ⌊r⌋ = n := Int.floor_eq_iff.mpr ⟨hr, by linarith⟩
    have : r - (n : α) < 1 / 2 := by linarith
    simp only [roundEven, hf, this, if_true]
  · have hr2 : r < n := not_le.mp hr
    have hf : ⌊r⌋ = n - 1 :=
      Int.floor_eq_iff.mpr ⟨by push_cast; linarith, by push_cast; linarith⟩
    have c1 : ¬ r - ((n - 1 : ℤ) : α) < 1 / 2 := by push_cast; linarith
    have c2 : 1 / 2 < r - ((n - 1 : ℤ) : α) := by push_cast; linarith
    simp only [roundEven, hf, c1, c2, if_false, if_true]
    omega

/-- The conversion of a value in the normal range whose magnitude, in units of
the spacing `2 ^ e0` at its exponent, is within half a unit of `n`. -/
theorem roundFloat32_eq (x : α) (e0 n : ℤ) (hx : x ≠ 0)
    (h1 : (2 : α) ^ (e0 + 23) ≤ |x|) (h2 : |x| < (2 : α) ^ (e0 + 24))
    (h3 : -149 ≤ e0) (h4 : e0 ≤ 300)
    (hn1 : (n : α) - 1 / 2 < |x| / 2 ^ e0) (hn2 : |x| / 2 ^ e0 < (n : α) + 1 / 2)
    (hfin : (n : α) * 2 ^ e0 < 2 ^ 128) :
    roundFloat32 x =
      if x < 0 then FloatVal.finite (-((n : α) * 2 ^ e0))
      else FloatVal.finite ((n : α) * 2 ^ e0) := by
  have he : floatExp 300 |x| 0 = e0 := floatExp_eq |x| e0 h1 h2 h3 300 0 (by omega)
  have hr : roundEven (|x| / 2 ^ e0) = n := roundEven_eq _ n hn1 hn2
  simp only [roundFloat32, hx, he, hr, if_false, not_le.mpr hfin]

/-- A positive binary32 value of the normal range, `n * 2 ^ e0` with a 24 bit
`n`, is kept by the conversion. -/
theorem roundFloat32_representable (n e0 : ℤ) (hn1 : 2 ^ 23 ≤ n) (hn2 : n < 2 ^ 24)
    (h3 : -149 ≤ e0) (h4 : e0 ≤ 104) :
    roundFloat32 ((n : α) * 2 ^ e0) = FloatVal.finite ((n : α) * 2 ^ e0) := by
  have hq : (0 : α) < 2 ^ e0 := zpow_pos (by norm_num) e0
  have hnpos : (0 : α) < (n : α) := by
    have : (0 : ℤ) < n := by omega
    exact_mod_cast this
  have hxpos : (0 : α) < (n : α) * 2 ^ e0 := mul_pos hnpos hq
  have habs : |(n : α) * 2 ^ e0| = (n : α) * 2 ^ e0 := abs_of_pos hxpos
  have c1 : ((2 : α) ^ (23 : ℤ)) ≤ (n : α) := by
    rw [show (2 : α) ^ (23 : ℤ) = ((2 ^ 23 : ℤ) : α) by norm_num]
    exact_mod_cast hn1
  have c2 : (n : α) < ((2 : α) ^ (24 : ℤ)) := by
    rw [show (2 : α) ^ (24 : ℤ) = ((2 ^ 24 : ℤ) : α) by norm_num]
    exact_mod_cast hn2
  have h := roundFloat32_eq ((n : α) * 2 ^ e0) e0 n (ne_of_gt hxpos)
    (by rw [habs, add_comm, zpow_add₀ (by norm_num : (2 : α) ≠ 0)]
        exact mul_le_mul_of_nonneg_right c1 (le_of_lt hq))
    (by rw [habs, add_comm, zpow_add₀ (by norm_num : (2 : α) ≠ 0)]
        exact mul_lt_mul_of_pos_right c2 hq)
    h3 (by omega)
    (by rw [habs, mul_div_assoc, div_self (ne_of_gt hq)]; linarith)
    (by rw [habs, mul_div_assoc, div_self (ne_of_gt hq)]; linarith)
    (by
      have e1 : (2 : α) ^ e0 ≤ 2 ^ (104 : ℤ) := zpow_le_zpow_right₀ (by norm_num) h4
      have e2 : (n : α) * 2 ^ e0 < 2 ^ (24 : ℤ) * 2 ^ (104 : ℤ) :=
        lt_of_lt_of_le (mul_lt_mul_of_pos_right c2 hq)
          (mul_le_mul_of_nonneg_left e1 (by positivity))
      have e3 : (2 : α) ^ (24 : ℤ) * 2 ^ (104 : ℤ) = 2 ^ 128 := by norm_num
      rw [e3] at e2
      exact e2)
  rw [h, if_neg (not_lt.mpr (le_of_lt hxpos))]

theorem roundFloat32_one : roundFloat32 (1 : α) = FloatVal.finite 1 := by
  have h := roundFloat32_representable (α := α) 8388608 (-23) (by norm_num) (by norm_num)
    (by norm_num) (by norm_num)
  norm_num at h
  exact h

theorem roundFloat32_three : roundFloat32 (3 : α) = FloatVal.finite 3 := by
  have h := roundFloat32_representable (α := α) 12582912 (-22) (by norm_num) (by norm_num)
    (by norm_num) (by norm_num)
  norm_num at h
  exact h

end Narrowing

/-! ## Sample count -/

/-- Supporting fact: while the product fits an `int`, `totalsamples` is the
mathematical product. -/
theorem totalsamples_eq_of_fits (srate dur : Int) (h0 : 0 ≤ srate * dur)
    (h1 : srate * dur < 2 ^ 31) : totalsamples srate dur = srate * dur := by
  unfold totalsamples wrapInt32
  have h : (srate * dur + 2 ^ 31) % 2 ^ 32 = srate * dur + 2 ^ 31 :=
    Int.emod_eq_of_lt (by omega) (by omega)
  omega

/-- C2 (evaluation at the failing request): for type 0, duration 30 and sample
rate 100000000 the request passes validation, yet the `int` product wraps:
`totalsamples` is -1294967296, not 3000000000. -/
theorem C2_totalsamples_wraps :
    ¬ rejected (main okEnv ⟨5, 0, 30, 100000000⟩) ∧
    totalsamples 100000000 30 = -1294967296 ∧
    totalsamples 100000000 30 ≠ 100000000 * 30 := by
  refine ⟨?_, ?_, ?_⟩
  · decide
  · decide
  · decide

/-! ## Validation and exit status -/

/-- C3: with five arguments, a working portsf and a recognised extension, the
run is rejected (status 1, nothing allocated, generated or created) exactly
when the type is outside 0..2, the duration outside 0..30 or the sample rate
not positive; every other request reaches the generation stage; durations
11..30 are accepted. -/
theorem C3_rejected_iff (env : Env) (a : Args) (hargc : a.argc = 5)
    (hinit : env.psf_init = 0) (hfmt : env.formatKnown = true) :
    (rejected (main env a) ↔
      ((a.alpha < 0 ∨ a.alpha > 2) ∨ (a.dur < 0 ∨ a.dur > 30) ∨ a.srate ≤ 0)) ∧
    (¬ ((a.alpha < 0 ∨ a.alpha > 2) ∨ (a.dur < 0 ∨ a.dur > 30) ∨ a.srate ≤ 0) →
      Event.malloc ∈ (main env a).trace ∧ Event.generate ∈ (main env a).trace) ∧
    (0 ≤ a.alpha → a.alpha ≤ 2 → 11 ≤ a.dur → a.dur ≤ 30 → 0 < a.srate →
      ¬ rejected (main env a)) := by
  have key : ¬ ((a.alpha < 0 ∨ a.alpha > 2) ∨ (a.dur < 0 ∨ a.dur > 30) ∨ a.srate ≤ 0) →
      Event.malloc ∈ (main env a).trace ∧ Event.generate ∈ (main env a).trace := by
    intro h
    have h1 : ¬ (a.alpha < 0 ∨ a.alpha > 2) := fun c => h (Or.inl c)
    have h2 : ¬ (a.dur < 0 ∨ a.dur > 30) := fun c => h (Or.inr (Or.inl c))
    have h3 : ¬ a.srate ≤ 0 := fun c => h (Or.inr (Or.inr c))
    unfold main
    simp only [hargc, hinit, hfmt, h1, h2, h3, ne_eq, not_true_eq_false, if_false]
    by_cases hc : env.psf_sndCreate < 0 <;> simp [hc]
  have rej : ((a.alpha < 0 ∨ a.alpha > 2) ∨ (a.dur < 0 ∨ a.dur > 30) ∨ a.srate ≤ 0) →
      rejected (main env a) := by
    intro h
    unfold rejected didWork main
    by_cases h1 : a.alpha < 0 ∨ a.alpha > 2
    · simp [hargc, h1]
    · by_cases h2 : a.dur < 0 ∨ a.dur > 30
      · simp [hargc, h1, h2]
      · have h3 : a.srate ≤ 0 := by tauto
        simp [hargc, hinit, h1, h2, h3]
  have acc : ¬ ((a.alpha < 0 ∨ a.alpha > 2) ∨ (a.dur < 0 ∨ a.dur > 30) ∨ a.srate ≤ 0) →
      ¬ rejected (main env a) := by
    intro h hr
    exact hr.2 (Or.inl (key h).1)
  refine ⟨⟨fun hr => by_contra fun h => acc h hr, rej⟩, key, ?_⟩
  intro ha0 ha2 hd0 hd30 hs
  apply acc
  omega

/-- C3 at a concrete request: type 1, duration 20 s, 44100 Hz is accepted. -/
theorem C3_rejected_iff_witness : ¬ rejected (main okEnv ⟨5, 1, 20, 44100⟩) :=
  (C3_rejected_iff okEnv ⟨5, 1, 20, 44100⟩ rfl rfl rfl).2.2
    (by decide) (by decide) (by decide) (by decide) (by decide)

/-- Supporting fact: a request that passes validation ends with status 0,
whatever `psf_sndCreate` and the writes return. -/
theorem status_zero_of_accepted (env : Env) (a : Args) (hargc : a.argc = 5)
    (hinit : env.psf_init = 0) (hfmt : env.formatKnown = true)
    (ha : 0 ≤ a.alpha ∧ a.alpha ≤ 2) (hd : 0 ≤ a.dur ∧ a.dur ≤ 30) (hs : 0 < a.srate) :
    (main env a).status = 0 := by
  have h1 : ¬ (a.alpha < 0 ∨ a.alpha > 2) := by omega
  have h2 : ¬ (a.dur < 0 ∨ a.dur > 30) := by omega
  have h3 : ¬ a.srate ≤ 0 := by omega
  unfold main
  simp only [hargc, hinit, hfmt, h1, h2, h3, ne_eq, not_true_eq_false, if_false]
  by_cases hc : env.psf_sndCreate < 0 <;> simp [hc]

/-- Supporting fact: the other exit paths at concrete runs. A run whose every
call succeeds ends with status 0; a short first write prints the error and
ends with status 0; a type out of range and a failing `psf_init` end with
status 1. -/
theorem exit_status_other_paths :
    (main okEnv ⟨5, 0, 1, 8⟩).status = 0 ∧
    (main noWriteEnv ⟨5, 0, 1, 8⟩).status = 0 ∧
    Event.printf Msg.writeFailed ∈ (main noWriteEnv ⟨5, 0, 1, 8⟩).trace ∧
    (main okEnv ⟨5, 3, 1, 8⟩).status = 1 ∧
    (main ⟨1, true, 3, fun _ => 1, 0⟩ ⟨5, 0, 1, 8⟩).status = 1 := by
  refine ⟨?_, ?_, ?_, ?_, ?_⟩ <;> decide

/-- C4 (evaluation at the failing run): for the valid request type 0, 1 s,
8000 Hz with `psf_sndCreate` returning -1, the error text is printed, no frame
is written and the exit status is 0, not 1. -/
theorem C4_create_failure_exits_zero :
    (main noCreateEnv ⟨5, 0, 1, 8000⟩).status = 0 ∧
    Event.printf Msg.createFailed ∈ (main noCreateEnv ⟨5, 0, 1, 8000⟩).trace ∧
    Event.psf_sndWriteFloatFrames 0 ∉ (main noCreateEnv ⟨5, 0, 1, 8000⟩).trace := by
  refine ⟨?_, ?_, ?_⟩
  · decide
  · decide
  · decide

/-! ## Red noise -/

section Red

variable {α : Type} [LinearOrderedField α]

theorem redStep_inv (gauss : Nat → α → α) (sigma : α) (N : Nat) (i : Nat) (s : Gen α)
    (h1 : 1 ≤ i) (hN : i < N) (h : RedInv gauss sigma N i s) :
    ∃ t, redStep gauss sigma i s = some t ∧ RedInv gauss sigma N (i + 1) t := by
  obtain ⟨hd, ha, hc, hs⟩ := h
  have hprev := hs (i - 1) (by omega)
  have hi1 : i - 1 + 1 = i := by omega
  rw [hi1] at hprev
  refine ⟨⟨s.samples_dbl.set i ((∑ j in Finset.range i, gauss j sigma) + gauss i sigma),
    s.samples_abs.set i |(∑ j in Finset.range i, gauss j sigma) + gauss i sigma|,
    i + 1⟩, ?_, ?_⟩
  · simp [redStep, rd_eq, hprev, wr, hd, ha, hN, hc]
  · refine ⟨by simp [hd], by simp [ha], rfl, ?_⟩
    intro k hk
    by_cases hki : k = i
    · subst hki
      simp [hd, hN, Finset.sum_range_succ]
    · have : i ≠ k := fun e => hki e.symm
      simp only [List.getElem?_set_ne this]
      exact hs k (by omega)

/-- C8: for `totalsamples = N ≥ 1` the red generator returns, consumes exactly
`N` draws in index order, and leaves in `samples_dbl` the random walk of the
draws `d j = gauss j (sqrt (1 / srate))`: cell `i` holds `d 0 + ... + d i`, so
cell 0 holds `d 0` and each cell from 1 on is its predecessor plus `d i`. -/
theorem C8_red_random_walk (sqrt : α → α) (gauss : Nat → α → α)
    (fwd inv : List α → List α) (heap : Heap α) (srate : Int) (N : Nat) (hN : 1 ≤ N) :
    ∃ g, generate sqrt gauss fwd inv heap 2 srate N = some g ∧
      g.samples_dbl.length = N ∧ g.calls = N ∧
      (∀ i, i < N → g.samples_dbl[i]? =
        some (∑ j in Finset.range (i + 1), gauss j (sqrt (1 / (srate : α))))) ∧
      g.samples_dbl[0]? = some (gauss 0 (sqrt (1 / (srate : α)))) ∧
      (∀ i, 1 ≤ i → i < N → ∃ p x, g.samples_dbl[i - 1]? = some p ∧
        g.samples_dbl[i]? = some x ∧ x = p + gauss i (sqrt (1 / (srate : α))) ∧
        x - p = gauss i (sqrt (1 / (srate : α)))) := by
  have hloop := forLoop_inv (redStep gauss (sqrt (1 / (srate : α))))
    (RedInv gauss (sqrt (1 / (srate : α))) N) (N - 1) 1
    ⟨(malloc heap.dbl N).set 0 (gauss 0 (sqrt (1 / (srate : α)))), malloc heap.abs N, 0 + 1⟩
    (by
      refine ⟨by simp [malloc_length], by simp [malloc_length], rfl, ?_⟩
      intro k hk
      have hk0 : k = 0 := by omega
      subst hk0
      rw [List.getElem?_set_self (by rw [malloc_length]; omega)]
      simp)
    (fun i t hi1 hi2 ht => redStep_inv gauss _ N i t hi1 (by omega) ht)
  obtain ⟨g, hg, hd, -, hc, hsum⟩ := hloop
  have e : 1 + (N - 1) = N := by omega
  rw [e] at hc hsum
  refine ⟨g, ?_, hd, hc, hsum, ?_, ?_⟩
  · have h0 : 0 < (malloc heap.dbl N).length := by rw [malloc_length]; omega
    simp [generate, red, wr, h0]
    simpa using hg
  · simpa using hsum 0 (by omega)
  · intro i hi1 hiN
    refine ⟨_, _, hsum (i - 1) (by omega), hsum i hiN, ?_, ?_⟩
    · have hi : i - 1 + 1 = i := by omega
      rw [hi, Finset.sum_range_succ]
    · have hi : i - 1 + 1 = i := by omega
      rw [hi, Finset.sum_range_succ]
      ring

end Red

/-- C8 at a concrete run: three samples at 1 Hz with draws 1, 2, 3. -/
theorem C8_red_random_walk_witness :
    ∃ g, generate Real.sqrt (fun k _ => (k : ℝ) + 1) id id
        ⟨fun _ => 0, fun _ => 0, fun _ => FloatVal.finite 0, fun _ => 0⟩ 2 1 3 = some g ∧
      g.samples_dbl.length = 3 ∧ g.calls = 3 ∧
      (∀ i, i < 3 → g.samples_dbl[i]? =
        some (∑ j in Finset.range (i + 1), ((j : ℝ) + 1))) ∧
      g.samples_dbl[0]? = some ((0 : ℕ) + 1 : ℝ) ∧
      (∀ i : ℕ, 1 ≤ i → i < 3 → ∃ p x, g.samples_dbl[i - 1]? = some p ∧
        g.samples_dbl[i]? = some x ∧ x = p + ((i : ℝ) + 1) ∧ x - p = (i : ℝ) + 1) :=
  C8_red_random_walk Real.sqrt (fun k _ => (k : ℝ) + 1) id id
    ⟨fun _ => 0, fun _ => 0, fun _ => FloatVal.finite 0, fun _ => 0⟩ 1 3 (by decide)

/-! ## White noise -/

section White

variable {α : Type} [LinearOrderedField α]

/-- The white generator on blocks of `N` cells returns, stores draw `k` in
cell `k` of `samples_dbl` and its absolute value in cell `k` of `samples_abs`. -/
theorem white_spec (gauss : Nat → α → α) (N : Nat) (s : Gen α)
    (hd : s.samples_dbl.length = N) (ha : s.samples_abs.length = N) :
    ∃ t, white gauss N s = some t ∧
      t.samples_dbl = (List.range N).map (fun k => gauss (s.calls + k) 1) ∧
      t.samples_abs = t.samples_dbl.map (fun x => |x|) ∧ t.calls = s.calls + N := by
  have h := forLoop_inv (whiteStep gauss)
    (fun i t => t.samples_dbl.length = N ∧ t.samples_abs.length = N ∧
      t.calls = s.calls + i ∧
      ∀ k, k < i → t.samples_dbl[k]? = some (gauss (s.calls + k) 1) ∧
        t.samples_abs[k]? = some |gauss (s.calls + k) 1|)
    N 0 s ⟨hd, ha, rfl, fun k hk => by omega⟩
    (fun i t _ hi ht => by
      obtain ⟨htd, hta, htc, hcells⟩ := ht
      have hid : i < t.samples_dbl.length := by omega
      have hia : i < t.samples_abs.length := by omega
      refine ⟨⟨t.samples_dbl.set i (gauss t.calls 1),
        t.samples_abs.set i |gauss t.calls 1|, t.calls + 1⟩,
        ?_, by simp [htd], by simp [hta], by simp [htc]; omega, ?_⟩
      · simp [whiteStep, rd_eq, wr, hid, hia]
      · intro k hk
        by_cases hki : k = i
        · subst hki
          simp [hid, hia, htc]
        · have hne : i ≠ k := fun e => hki e.symm
          simp only [List.getElem?_set_ne hne]
          exact hcells k (by omega))
  obtain ⟨t, ht, htd, hta, htc, hcells⟩ := h
  have e1 : t.samples_dbl = (List.range N).map (fun k => gauss (s.calls + k) 1) := by
    apply List.ext_getElem?
    intro k
    by_cases hk : k < N
    · rw [(hcells k (by omega)).1]
      simp [List.getElem?_range hk]
    · have a : t.samples_dbl.length ≤ k := by omega
      have b : ((List.range N).map (fun k => gauss (s.calls + k) 1)).length ≤ k := by
        simp; omega
      rw [List.getElem?_eq_none a, List.getElem?_eq_none b]
  refine ⟨t, ht, e1, ?_, by simpa using htc⟩
  apply List.ext_getElem?
  intro k
  by_cases hk : k < N
  · rw [(hcells k (by omega)).2, List.getElem?_map, (hcells k (by omega)).1]
    rfl
  · have a : t.samples_abs.length ≤ k := by omega
    have b : (t.samples_dbl.map (fun x => |x|)).length ≤ k := by
      simp; omega
    rw [List.getElem?_eq_none a, List.getElem?_eq_none b]

end White

/-! ## Evaluations of the pipeline -/

/-- C1 (evaluation at the failing run): red noise, two samples at 1 Hz, draws 3
and -2, fresh heap cells holding 0, binary32 narrowing. The raw buffer is
`[3, 1]` (peak 3), but `samples_abs` is `[0, 1]` because cell 0 is never stored,
the peak read from it is 1, and the output buffer is `[3, 1]`: its first value
is outside [-1, 1]. -/
theorem C1_red_output_exceeds_one :
    (generate Real.sqrt (fun k _ => if k = 0 then (3 : ℝ) else -2) id id
        ⟨fun _ => 0, fun _ => 0, fun _ => FloatVal.finite 0, fun _ => 0⟩ 2 1 2).map
      (fun g => (g.samples_dbl, g.samples_abs)) = some ([3, 1], [0, 1]) ∧
    pipeline Real.sqrt roundFloat32 (fun k _ => if k = 0 then (3 : ℝ) else -2) id id
        ⟨fun _ => 0, fun _ => 0, fun _ => FloatVal.finite 0, fun _ => 0⟩ 2 1 2 =
      some [FloatVal.finite 3, FloatVal.finite 1] ∧
    ¬ ((-1 : ℝ) ≤ 3 ∧ (3 : ℝ) ≤ 1) := by
  refine ⟨?_, ?_, ?_⟩
  · norm_num [generate, red, redStep, forLoop, wr, rd, malloc, List.range, List.range.loop]
  · norm_num [pipeline, generate, normalise, gsl_stats_max, convertStep, convertCell, red,
      redStep, forLoop, wr, rd, malloc, List.range, List.range.loop, roundFloat32_three,
      roundFloat32_one]
  · norm_num

/-- C7 (evaluation at the failing run): for `totalsamples = 0` (duration 0 at
44100 Hz) the red generator stores to `samples_dbl[0]` of a block of no cells,
and for every type the peak computation reads `samples_abs[0]` of a block of
no cells: neither the red generator nor the pipeline completes within bounds. -/
theorem C7_zero_length_out_of_bounds :
    generate Real.sqrt (fun _ _ => (0 : ℝ)) id id
        ⟨fun _ => 0, fun _ => 0, fun _ => FloatVal.finite 0, fun _ => 0⟩ 2 44100 0 = none ∧
    pipeline Real.sqrt roundFloat32 (fun _ _ => (0 : ℝ)) id id
        ⟨fun _ => 0, fun _ => 0, fun _ => FloatVal.finite 0, fun _ => 0⟩ 2 44100 0 = none ∧
    pipeline Real.sqrt roundFloat32 (fun _ _ => (0 : ℝ)) id id
        ⟨fun _ => 0, fun _ => 0, fun _ => FloatVal.finite 0, fun _ => 0⟩ 0 44100 0 = none ∧
    gsl_stats_max ([] : List ℝ) 0 = none := by
  refine ⟨?_, ?_, ?_, ?_⟩
  · simp [generate, red, wr, malloc]
  · simp [pipeline, generate, red, wr, malloc]
  · simp [pipeline, generate, white, forLoop, normalise, gsl_stats_max, rd, malloc]
  · simp [gsl_stats_max, rd]

/-! ## Spectral shaping -/

section Shaping

variable {α : Type} [LinearOrderedField α]

/-- Effect of one shaping step on a packed array of `N` bins: cells `2 i` and
`2 i + 1` are divided by `sqrt r`, every other cell is kept. -/
theorem scaleBin_spec (sqrt : α → α) (r N i : Nat) (w : List α) (hw : w.length = 2 * N)
    (hi : i < N) :
    ∃ w', scaleBin sqrt r i w = some w' ∧ w'.length = 2 * N ∧
      ∀ j, w'[j]? = if j / 2 = i then w[j]?.map (fun x => x / sqrt (r : α)) else w[j]? := by
  have h0 : 2 * i < w.length := by omega
  have h1 : 2 * i + 1 < w.length := by omega
  refine ⟨(w.set (2 * i) (w[2 * i] / sqrt (r : α))).set (2 * i + 1)
    (w[2 * i + 1] / sqrt (r : α)), ?_, by simp [hw], ?_⟩
  · simp [scaleBin, rd_eq, wr, h0, h1, List.getElem?_eq_getElem]
  · intro j
    by_cases hj0 : j = 2 * i
    · subst hj0
      have : (2 * i) / 2 = i := by omega
      simp [this, h0, List.getElem?_eq_getElem]
    · by_cases hj1 : j = 2 * i + 1
      · subst hj1
        have : (2 * i + 1) / 2 = i := by omega
        simp [this, h0, h1, List.getElem?_eq_getElem]
      · have hne : ¬ j / 2 = i := by omega
        have a0 : 2 * i ≠ j := fun e => hj0 e.symm
        have a1 : 2 * i + 1 ≠ j := fun e => hj1 e.symm
        simp [hne, List.getElem?_set_ne a0, List.getElem?_set_ne a1]

/-- A shaping loop over the bins `lo .. lo + n - 1` divides exactly the cells
of those bins, bin `b` by `sqrt (r b)`. -/
theorem shapeLoop_spec (sqrt : α → α) (r : Nat → Nat) (N n lo : Nat) (w : List α)
    (hw : w.length = 2 * N) (hn : lo + n ≤ N) :
    ∃ w', forLoop (fun i z => scaleBin sqrt (r i) i z) lo n w = some w' ∧
      w'.length = 2 * N ∧
      ∀ j, w'[j]? = if lo ≤ j / 2 ∧ j / 2 < lo + n
        then w[j]?.map (fun x => x / sqrt ((r (j / 2) : ℕ) : α)) else w[j]? := by
  have h := forLoop_inv (fun i z => scaleBin sqrt (r i) i z)
    (fun i v => v.length = 2 * N ∧ ∀ j, v[j]? = if lo ≤ j / 2 ∧ j / 2 < i
        then w[j]?.map (fun x => x / sqrt ((r (j / 2) : ℕ) : α)) else w[j]?)
    n lo w
    ⟨hw, fun j => by
      have : ¬ (lo ≤ j / 2 ∧ j / 2 < lo) := by omega
      simp [this]⟩
    (fun i v hlo hhi hv => by
      obtain ⟨hlen, hcells⟩ := hv
      obtain ⟨v', hv', hlen', hcells'⟩ := scaleBin_spec sqrt (r i) N i v hlen (by omega)
      refine ⟨v', hv', hlen', fun j => ?_⟩
      rw [hcells' j, hcells j]
      by_cases hj : j / 2 = i
      · have c1 : ¬ (lo ≤ j / 2 ∧ j / 2 < i) := by omega
        have c2 : lo ≤ j / 2 ∧ j / 2 < i + 1 := by omega
        simp only [hj, if_true]
        rw [hj] at c1 c2
        simp only [c1, c2, if_false]
        simp
      · by_cases c : lo ≤ j / 2 ∧ j / 2 < i
        · have c2 : lo ≤ j / 2 ∧ j / 2 < i + 1 := by omega
          simp [hj, c, c2]
        · have c2 : ¬ (lo ≤ j / 2 ∧ j / 2 < i + 1) := by omega
          simp [hj, c, c2])
  obtain ⟨w', h1, h2, h3⟩ := h
  exact ⟨w', h1, h2, h3⟩

theorem points_eq (N : Nat) : points N = (N + 1) / 2 := by
  unfold points
  split <;> omega

/-- C6: `points` is the ceiling of `N / 2`; on a packed array of `N` bins the
shaping returns, and bin `i` (both its real and its imaginary cell) is the input
bin divided once, by `sqrt (i + 1)` below the midpoint and by `sqrt (N - i)` from
the midpoint on. The radicand is at least 1, so the real square root of it is
positive; for `N = 0` and `N = 1` as well. -/
theorem C6_shape_scales_each_bin_once (sqrt : α → α) (N : Nat) (z : List α)
    (hz : z.length = 2 * N) :
    points N = (N + 1) / 2 ∧ ((points N : ℤ) = ⌈(N : ℚ) / 2⌉) ∧
    ∃ w, shape sqrt N z = some w ∧ w.length = 2 * N ∧
      ∀ i, i < N →
        1 ≤ (if i < points N then i + 1 else N - i) ∧
        0 < Real.sqrt (((if i < points N then i + 1 else N - i : ℕ) : ℝ)) ∧
        w[2 * i]? = z[2 * i]?.map
          (fun x => x / sqrt (((if i < points N then i + 1 else N - i : ℕ) : α))) ∧
        w[2 * i + 1]? = z[2 * i + 1]?.map
          (fun x => x / sqrt (((if i < points N then i + 1 else N - i : ℕ) : α))) := by
  have hp := points_eq N
  refine ⟨hp, ?_, ?_⟩
  · symm
    rw [Int.ceil_eq_iff, hp]
    have h2 : ((((N + 1) / 2 : ℕ) : ℤ) : ℚ) = (((N + 1) / 2 : ℕ) : ℚ) := by norm_cast
    rw [h2]
    rcases Nat.even_or_odd N with ⟨k, hk⟩ | ⟨k, hk⟩
    · have e : (N + 1) / 2 = k := by omega
      rw [e, hk]
      push_cast
      constructor <;> linarith
    · have e : (N + 1) / 2 = k + 1 := by omega
      rw [e, hk]
      push_cast
      constructor <;> linarith
  · obtain ⟨w1, hw1, hl1, hc1⟩ := shapeLoop_spec sqrt (fun i => i + 1) N (points N) 0 z hz
      (by rw [hp]; omega)
    obtain ⟨w2, hw2, hl2, hc2⟩ := shapeLoop_spec sqrt (fun i => N - i) N (N - points N)
      (points N) w1 hl1 (by rw [hp]; omega)
    refine ⟨w2, by simp [shape, hw1, hw2], hl2, fun i hi => ?_⟩
    have hrad : 1 ≤ (if i < points N then i + 1 else N - i) := by
      split <;> omega
    refine ⟨hrad, ?_, ?_, ?_⟩
    · apply Real.sqrt_pos.mpr
      have : (1 : ℝ) ≤ (((if i < points N then i + 1 else N - i : ℕ)) : ℝ) := by
        exact_mod_cast hrad
      linarith
    · have d : (2 * i) / 2 = i := by omega
      rw [hc2 (2 * i), hc1 (2 * i), d]
      by_cases c : i < points N
      · have c2 : ¬ (points N ≤ i ∧ i < points N + (N - points N)) := by omega
        simp [c, c2]
      · have c2 : points N ≤ i ∧ i < points N + (N - points N) := by omega
        simp [c, c2]
    · have d : (2 * i + 1) / 2 = i := by omega
      rw [hc2 (2 * i + 1), hc1 (2 * i + 1), d]
      by_cases c : i < points N
      · have c2 : ¬ (points N ≤ i ∧ i < points N + (N - points N)) := by omega
        simp [c, c2]
      · have c2 : points N ≤ i ∧ i < points N + (N - points N) := by omega
        simp [c, c2]

end Shaping

/-- C6 at a concrete array: three bins, the degenerate lengths included in the
general statement. -/
theorem C6_shape_scales_each_bin_once_witness :
    points 3 = (3 + 1) / 2 ∧ ((points 3 : ℤ) = ⌈((3 : ℕ) : ℚ) / 2⌉) ∧
    ∃ w, shape Real.sqrt 3 [1, 2, 3, 4, 5, 6] = some w ∧ w.length = 2 * 3 ∧
      ∀ i, i < 3 →
        1 ≤ (if i < points 3 then i + 1 else 3 - i) ∧
        0 < Real.sqrt (((if i < points 3 then i + 1 else 3 - i : ℕ) : ℝ)) ∧
        w[2 * i]? = ([1, 2, 3, 4, 5, 6] : List ℝ)[2 * i]?.map
          (fun x => x / Real.sqrt (((if i < points 3 then i + 1 else 3 - i : ℕ) : ℝ))) ∧
        w[2 * i + 1]? = ([1, 2, 3, 4, 5, 6] : List ℝ)[2 * i + 1]?.map
          (fun x => x / Real.sqrt (((if i < points 3 then i + 1 else 3 - i : ℕ) : ℝ))) :=
  C6_shape_scales_each_bin_once Real.sqrt 3 [1, 2, 3, 4, 5, 6] (by simp)

/-- Supporting fact: the radicands of the two loops are mirrored about the
last bin, bin `i` and bin `N - 1 - i` share theirs. -/
theorem radicand_mirrored_about_last_bin (N i : Nat) (hi : i < N) :
    (if i < points N then i + 1 else N - i) =
      (if N - 1 - i < points N then N - 1 - i + 1 else N - (N - 1 - i)) := by
  rw [points_eq]
  split <;> split <;> omega

/-- Supporting fact: no bin `k` in `1 .. N - 1` other than the self-mirrored
`k = N - k` shares its radicand with bin `N - k`. -/
theorem radicand_differs_from_conjugate_bin (N k : Nat) (h1 : 1 ≤ k) (hk : k < N)
    (hne : k ≠ N - k) :
    (if k < points N then k + 1 else N - k) ≠
      (if N - k < points N then N - k + 1 else N - (N - k)) := by
  rw [points_eq]
  split <;> split <;> omega

/-- C5 (evaluation at the failing length): for `N = 4` the shaping divides bin 1
by `sqrt 2` and its mirror bin `4 - 1 = 3` by `sqrt 1`. The spectrum
`1, 1, 1, 1` of the real sequence `1, 0, 0, 0` is shaped into
`1, 1 / sqrt 2, 1 / sqrt 2, 1`, whose bins 1 and 3 are real and differ, so it
is not conjugate-symmetric. -/
theorem C5_shaping_breaks_mirror_symmetry :
    shape Real.sqrt 4 [1, 0, 1, 0, 1, 0, 1, 0] =
      some [1, 0, 1 / Real.sqrt 2, 0, 1 / Real.sqrt 2, 0, 1, 0] ∧
    (1 / Real.sqrt 2 : ℝ) ≠ 1 ∧
    Real.sqrt ((1 + 1 : ℕ) : ℝ) ≠ Real.sqrt ((4 - 3 : ℕ) : ℝ) := by
  have h2 : Real.sqrt 2 ≠ 1 := by
    intro h
    have := Real.sqrt_eq_one.mp h
    norm_num at this
  refine ⟨?_, ?_, ?_⟩
  · norm_num [shape, points, scaleBin, forLoop, wr, rd]
  · intro h
    apply h2
    have hpos : (0 : ℝ) < Real.sqrt 2 := Real.sqrt_pos.mpr (by norm_num)
    field_simp at h
    linarith
  · norm_num

/-! ## Normaliser -/

section Normaliser

variable {α : Type} [LinearOrderedField α]

/-- On a block of `n ≥ 1` cells `gsl_stats_max` returns a cell value that
bounds every cell from above. -/
theorem gsl_stats_max_spec (data : List α) (n : Nat) (hn : data.length = n) (h1 : 1 ≤ n) :
    ∃ m, gsl_stats_max data n = some m ∧ m ∈ data ∧ ∀ x ∈ data, x ≤ m := by
  have h0 : 0 < data.length := by omega
  have h := forLoop_inv
    (fun i m => (rd data i).map fun xi => if xi > m then xi else m)
    (fun i m => m ∈ data ∧ ∀ k, k < i → ∀ x, data[k]? = some x → x ≤ m)
    n 0 (data[0])
    ⟨List.getElem_mem _, fun k hk => by omega⟩
    (fun i m _ hi hm => by
      obtain ⟨hmem, hle⟩ := hm
      have hil : i < data.length := by omega
      refine ⟨if data[i] > m then data[i] else m, ?_, ?_, ?_⟩
      · simp [rd_eq, List.getElem?_eq_getElem hil]
      · split
        · exact List.getElem_mem _
        · exact hmem
      · intro k hk x hx
        by_cases hki : k = i
        · subst hki
          rw [List.getElem?_eq_getElem hil] at hx
          cases hx
          split
          · exact le_refl _
          · exact not_lt.mp (by assumption)
        · have := hle k (by omega) x hx
          split
          · exact le_trans this (le_of_lt (by assumption))
          · exact this)
  obtain ⟨m, hm, hmem, hle⟩ := h
  refine ⟨m, ?_, hmem, ?_⟩
  · have e : rd data 0 = some data[0] := by rw [rd_eq, List.getElem?_eq_getElem h0]
    rw [gsl_stats_max, e]
    exact hm
  · intro x hx
    obtain ⟨k, hk, rfl⟩ := List.getElem_of_mem hx
    exact hle k (by omega) _ (List.getElem?_eq_getElem hk)

/-- The conversion loop fills the output block with the converted samples. -/
theorem convertLoop_spec (toFloat : α → FloatVal α) (dbl : List α) (max : α) (N : Nat)
    (out : List (FloatVal α)) (hd : dbl.length = N) (ho : out.length = N) :
    forLoop (convertStep toFloat dbl max) 0 N out =
      some (dbl.map (convertCell toFloat max)) := by
  have h := forLoop_inv (convertStep toFloat dbl max)
    (fun i o => o.length = N ∧ ∀ k, k < i → o[k]? = dbl[k]?.map (convertCell toFloat max))
    N 0 out ⟨ho, fun k hk => by omega⟩
    (fun i o _ hi ho => by
      obtain ⟨hlen, hcells⟩ := ho
      have hid : i < dbl.length := by omega
      have hio : i < o.length := by omega
      refine ⟨o.set i (convertCell toFloat max dbl[i]), ?_, by simp [hlen], ?_⟩
      · simp [convertStep, rd_eq, List.getElem?_eq_getElem hid, wr, hio]
      · intro k hk
        by_cases hki : k = i
        · subst hki
          simp [hio, List.getElem?_eq_getElem hid]
        · have : i ≠ k := fun e => hki e.symm
          rw [List.getElem?_set_ne this]
          exact hcells k (by omega))
  obtain ⟨o, ho1, hlen, hcells⟩ := h
  rw [ho1]
  congr 1
  apply List.ext_getElem?
  intro k
  by_cases hk : k < N
  · simpa using hcells k (by omega)
  · have a : o.length ≤ k := by omega
    have b : (dbl.map (convertCell toFloat max)).length ≤ k := by simp; omega
    rw [List.getElem?_eq_none a, List.getElem?_eq_none b]

/-- The normaliser on blocks of `N ≥ 1` cells returns the conversion of every
sample with the peak it read from `samples_abs`. -/
theorem normalise_spec (toFloat : α → FloatVal α) (out : Nat → FloatVal α) (N : Nat)
    (s : Gen α) (hd : s.samples_dbl.length = N) (ha : s.samples_abs.length = N)
    (h1 : 1 ≤ N) :
    ∃ m, gsl_stats_max s.samples_abs N = some m ∧ m ∈ s.samples_abs ∧
      (∀ x ∈ s.samples_abs, x ≤ m) ∧
      normalise toFloat out N s = some (s.samples_dbl.map (convertCell toFloat m)) := by
  obtain ⟨m, hm, hmem, hle⟩ := gsl_stats_max_spec s.samples_abs N ha h1
  refine ⟨m, hm, hmem, hle, ?_⟩
  simp [normalise, hm, convertLoop_spec toFloat s.samples_dbl m N (malloc out N) hd
    (malloc_length out N)]

/-- Where both narrowings are exact and the peak is not zero, the stored value
is the quotient. -/
theorem convertCell_exact (toFloat : α → FloatVal α) (max x : α) (hmax : max ≠ 0)
    (hx : toFloat x = FloatVal.finite x)
    (hq : toFloat (x / max) = FloatVal.finite (x / max)) :
    convertCell toFloat max x = FloatVal.finite (x / max) := by
  simp [convertCell, hx, hmax, hq]

/-- The normaliser on a buffer with a nonzero sample whose absolute values are
in `samples_abs`, with narrowings that are exact on the samples and on their
quotients by the peak: the peak `m` read is the largest absolute value, it is
positive, and the output is every sample divided by `m`. -/
theorem normalise_exact (toFloat : α → FloatVal α) (out : Nat → FloatVal α) (c : Nat)
    (b : List α) (h : ∃ x ∈ b, x ≠ 0)
    (hrep : ∀ m, m ∈ b.map (fun x => |x|) → (∀ a ∈ b, |a| ≤ m) →
      ∀ x ∈ b, toFloat x = FloatVal.finite x ∧ toFloat (x / m) = FloatVal.finite (x / m)) :
    ∃ m, gsl_stats_max (b.map fun x => |x|) b.length = some m ∧ 0 < m ∧
      m ∈ b.map (fun x => |x|) ∧ (∀ a ∈ b, |a| ≤ m) ∧
      normalise toFloat out b.length ⟨b, b.map (fun x => |x|), c⟩ =
        some ((b.map fun x => x / m).map FloatVal.finite) := by
  obtain ⟨x0, hx0, hx0ne⟩ := h
  have hlen : 1 ≤ b.length := List.length_pos_of_mem hx0
  obtain ⟨m, hm, hmem, hle, hy⟩ := normalise_spec toFloat out b.length
    ⟨b, b.map (fun x => |x|), c⟩ rfl (by simp) hlen
  have hbound : ∀ a ∈ b, |a| ≤ m := fun a ha => hle _ (List.mem_map.mpr ⟨a, ha, rfl⟩)
  have hmpos : 0 < m := lt_of_lt_of_le (abs_pos.mpr hx0ne) (hbound x0 hx0)
  refine ⟨m, hm, hmpos, hmem, hbound, ?_⟩
  rw [hy, List.map_map]
  congr 1
  apply List.map_congr_left
  intro x hx
  obtain ⟨r1, r2⟩ := hrep m hmem hbound x hx
  simpa using convertCell_exact toFloat m x (ne_of_gt hmpos) r1 r2

/-- Supporting fact for the paths that store every cell of `samples_abs`: when
`samples_abs` holds the absolute values of `samples_dbl`, the peak is not zero
and the narrowings are exact on the values met, every output value lies in
[-1, 1]. -/
theorem normalise_in_range (toFloat : α → FloatVal α) (out : Nat → FloatVal α) (c : Nat)
    (b : List α) (h : ∃ x ∈ b, x ≠ 0)
    (hrep : ∀ m, m ∈ b.map (fun x => |x|) → (∀ a ∈ b, |a| ≤ m) →
      ∀ x ∈ b, toFloat x = FloatVal.finite x ∧ toFloat (x / m) = FloatVal.finite (x / m)) :
    ∃ y : List α, normalise toFloat out b.length ⟨b, b.map (fun x => |x|), c⟩ =
        some (y.map FloatVal.finite) ∧ y.length = b.length ∧
      ∀ v ∈ y, -1 ≤ v ∧ v ≤ 1 := by
  obtain ⟨m, -, hmpos, -, hbound, hy⟩ := normalise_exact toFloat out c b h hrep
  refine ⟨b.map fun x => x / m, hy, by simp, ?_⟩
  intro v hv
  obtain ⟨x, hx, rfl⟩ := List.mem_map.mp hv
  have := abs_le.mp (hbound x hx)
  constructor
  · rw [le_div_iff₀ hmpos]; linarith [this.1]
  · rw [div_le_iff₀ hmpos]; linarith [this.2]

/-- Supporting fact: on the white path, when some draw is not zero and the
narrowing is exact, the pipeline returns `N` output values, all in [-1, 1]. -/
theorem white_pipeline_in_range (sqrt : α → α) (toFloat : α → FloatVal α)
    (gauss : Nat → α → α) (fwd inv : List α → List α) (heap : Heap α) (srate : Int)
    (N : Nat) (h : ∃ k, k < N ∧ gauss k 1 ≠ 0)
    (hexact : ∀ x, toFloat x = FloatVal.finite x) :
    ∃ y : List α, pipeline sqrt toFloat gauss fwd inv heap 0 srate N =
        some (y.map FloatVal.finite) ∧
      y.length = N ∧ ∀ v ∈ y, -1 ≤ v ∧ v ≤ 1 := by
  obtain ⟨k, hk, hne⟩ := h
  obtain ⟨t, ht, hdbl, habs, -⟩ := white_spec gauss N
    ⟨malloc heap.dbl N, malloc heap.abs N, 0⟩ (malloc_length _ _) (malloc_length _ _)
  obtain ⟨td, ta, tc⟩ := t
  simp only at hdbl habs
  subst habs
  have hlen : td.length = N := by rw [hdbl]; simp
  have hmem : gauss k 1 ∈ td := by
    rw [hdbl]
    exact List.mem_map.mpr ⟨k, List.mem_range.mpr hk, by simp⟩
  obtain ⟨y, hy, hylen, hrange⟩ := normalise_in_range toFloat heap.out tc td ⟨_, hmem, hne⟩
    (fun m _ _ x _ => ⟨hexact x, hexact _⟩)
  rw [hlen] at hy hylen
  refine ⟨y, ?_, hylen, hrange⟩
  simp [pipeline, generate, ht, hy]

end Normaliser

section Renormalise

variable {α : Type} [LinearOrderedField α]

/-- The re-normalisation loop replaces every sample `x` by
`(x - pink_mean) / pink_std` and stores its absolute value in `samples_abs`. -/
theorem renormLoop_spec (pink_mean pink_std : α) (N : Nat) (s : Gen α)
    (hd : s.samples_dbl.length = N) (ha : s.samples_abs.length = N) :
    ∃ t, forLoop (renormStep pink_mean pink_std) 0 N s = some t ∧
      t.samples_dbl = s.samples_dbl.map (fun x => (x - pink_mean) / pink_std) ∧
      t.samples_abs.length = N ∧
      (∀ i, i < N → t.samples_abs[i]? = t.samples_dbl[i]?.map (fun x => |x|)) ∧
      t.calls = s.calls := by
  have h := forLoop_inv (renormStep pink_mean pink_std)
    (fun i t => t.samples_dbl.length = N ∧ t.samples_abs.length = N ∧ t.calls = s.calls ∧
      (∀ k, k < i → t.samples_dbl[k]? =
          s.samples_dbl[k]?.map (fun x => (x - pink_mean) / pink_std) ∧
        t.samples_abs[k]? = t.samples_dbl[k]?.map (fun x => |x|)) ∧
      (∀ k, i ≤ k → t.samples_dbl[k]? = s.samples_dbl[k]?))
    N 0 s ⟨hd, ha, rfl, fun k hk => by omega, fun k _ => rfl⟩
    (fun i t _ hi ht => by
      obtain ⟨htd, hta, htc, hlow, hhigh⟩ := ht
      have hid : i < t.samples_dbl.length := by omega
      have hia : i < t.samples_abs.length := by omega
      have his : i < s.samples_dbl.length := by omega
      have hcur : t.samples_dbl[i] = s.samples_dbl[i] := by
        have := hhigh i (le_refl i)
        rw [List.getElem?_eq_getElem hid, List.getElem?_eq_getElem his] at this
        exact Option.some.inj this
      refine ⟨⟨t.samples_dbl.set i ((t.samples_dbl[i] - pink_mean) / pink_std),
        t.samples_abs.set i |(t.samples_dbl[i] - pink_mean) / pink_std|, t.calls⟩,
        ?_, by simp [htd], by simp [hta], htc, ?_, ?_⟩
      · simp [renormStep, rd_eq, List.getElem?_eq_getElem hid, wr, hid, hia]
      · intro k hk
        by_cases hki : k = i
        · subst hki
          simp [hid, hia, List.getElem?_eq_getElem his, hcur]
        · have hne : i ≠ k := fun e => hki e.symm
          simp only [List.getElem?_set_ne hne]
          exact hlow k (by omega)
      · intro k hk
        have hne : i ≠ k := by omega
        simp only [List.getElem?_set_ne hne]
        exact hhigh k (by omega))
  obtain ⟨t, ht, htd, hta, htc, hlow, -⟩ := h
  refine ⟨t, ht, ?_, hta, fun i hi => (hlow i (by omega)).2, htc⟩
  apply List.ext_getElem?
  intro k
  by_cases hk : k < N
  · simpa using (hlow k (by omega)).1
  · have a : t.samples_dbl.length ≤ k := by omega
    have b : (s.samples_dbl.map (fun x => (x - pink_mean) / pink_std)).length ≤ k := by
      simp; omega
    rw [List.getElem?_eq_none a, List.getElem?_eq_none b]

theorem sum_map_shift_scale (xs : List α) (m d : α) :
    (xs.map (fun x => (x - m) / d)).sum = (xs.sum - (xs.length : α) * m) / d := by
  induction xs with
  | nil => simp
  | cons x xs ih =>
    simp only [List.map_cons, List.sum_cons, List.length_cons, ih]
    push_cast
    ring

theorem sum_map_sq_shift_scale (xs : List α) (m d : α) :
    ((xs.map (fun x => (x - m) / d)).map (fun y => (y - 0) ^ 2)).sum =
      (xs.map (fun x => (x - m) ^ 2)).sum / d ^ 2 := by
  induction xs with
  | nil => simp
  | cons x xs ih =>
    simp only [List.map_cons, List.sum_cons, ih]
    ring

theorem gsl_stats_mean_eq (xs : List α) (N : Nat) (hlen : xs.length = N) :
    gsl_stats_mean xs N = xs.sum / (N : α) := by
  unfold gsl_stats_mean
  rw [List.take_of_length_le (by omega)]

theorem gsl_stats_sd_eq (sqrt : α → α) (xs : List α) (N : Nat) (hlen : xs.length = N) :
    gsl_stats_sd sqrt xs N =
      sqrt ((xs.map fun x => (x - gsl_stats_mean xs N) ^ 2).sum / ((N : α) - 1)) := by
  unfold gsl_stats_sd
  rw [List.take_of_length_le (by omega)]

/-- After shifting by the mean and dividing by `d`, the mean of a non-empty
buffer is 0. -/
theorem mean_standardised (xs : List α) (N : Nat) (hlen : xs.length = N) (hN : 1 ≤ N)
    (d : α) :
    gsl_stats_mean (xs.map (fun x => (x - gsl_stats_mean xs N) / d)) N = 0 := by
  have hNne : (N : α) ≠ 0 := by
    have : (0 : α) < (N : α) := by exact_mod_cast hN
    exact ne_of_gt this
  rw [gsl_stats_mean_eq _ N (by simp [hlen]), sum_map_shift_scale,
    gsl_stats_mean_eq xs N hlen, hlen]
  have : xs.sum - (N : α) * (xs.sum / (N : α)) = 0 := by
    field_simp
  rw [this]
  simp

end Renormalise

/-- C10: for a real buffer of `N ≥ 2` samples whose sample standard deviation
is not zero, the re-normalisation returns; every sample `x` has become
`(x - mean) / sd`; the new buffer has mean exactly 0 and sample standard
deviation exactly 1; and `samples_abs[i]` is the absolute value of the new
sample `i` for every `i < N`. -/
theorem C10_renormalise_standardises (N : Nat) (s : Gen ℝ) (hN : 2 ≤ N)
    (hd : s.samples_dbl.length = N) (ha : s.samples_abs.length = N)
    (hsd : gsl_stats_sd Real.sqrt s.samples_dbl N ≠ 0) :
    ∃ t, renormalise Real.sqrt N s = some t ∧
      t.samples_dbl = s.samples_dbl.map (fun x =>
        (x - gsl_stats_mean s.samples_dbl N) / gsl_stats_sd Real.sqrt s.samples_dbl N) ∧
      gsl_stats_mean t.samples_dbl N = 0 ∧
      gsl_stats_sd Real.sqrt t.samples_dbl N = 1 ∧
      t.samples_abs.length = N ∧
      (∀ i, i < N → t.samples_abs[i]? = t.samples_dbl[i]?.map (fun x => |x|)) := by
  obtain ⟨t, ht, htd, hta, habs, -⟩ := renormLoop_spec (gsl_stats_mean s.samples_dbl N)
    (gsl_stats_sd Real.sqrt s.samples_dbl N) N s hd ha
  have hmean := mean_standardised s.samples_dbl N hd (by omega)
    (gsl_stats_sd Real.sqrt s.samples_dbl N)
  refine ⟨t, ht, htd, by rw [htd]; exact hmean, ?_, hta, habs⟩
  rw [htd]
  have hN1 : (0 : ℝ) < (N : ℝ) - 1 := by
    have : (2 : ℝ) ≤ (N : ℝ) := by exact_mod_cast hN
    linarith
  have hsdeq := gsl_stats_sd_eq Real.sqrt s.samples_dbl N hd
  -- the variance under the root is positive and the root squares to it
  have hvar : gsl_stats_sd Real.sqrt s.samples_dbl N ^ 2 =
      ((s.samples_dbl.map fun x => (x - gsl_stats_mean s.samples_dbl N) ^ 2).sum) /
        ((N : ℝ) - 1) := by
    have hpos : 0 < ((s.samples_dbl.map fun x =>
        (x - gsl_stats_mean s.samples_dbl N) ^ 2).sum) / ((N : ℝ) - 1) := by
      by_contra hc
      apply hsd
      rw [hsdeq]
      exact Real.sqrt_eq_zero_of_nonpos (not_lt.mp hc)
    rw [hsdeq]
    exact Real.sq_sqrt (le_of_lt hpos)
  have hsq : gsl_stats_sd Real.sqrt s.samples_dbl N ^ 2 ≠ 0 := pow_ne_zero 2 hsd
  rw [gsl_stats_sd_eq Real.sqrt _ N (by simp [hd]), hmean, sum_map_sq_shift_scale]
  have : ((s.samples_dbl.map fun x => (x - gsl_stats_mean s.samples_dbl N) ^ 2).sum /
        gsl_stats_sd Real.sqrt s.samples_dbl N ^ 2) / ((N : ℝ) - 1) = 1 := by
    rw [div_right_comm, ← hvar, div_self hsq]
  rw [this, Real.sqrt_one]

/-- C10 at a concrete buffer: `0, 2` has mean 1 and sample standard deviation
`sqrt 2`. -/
theorem C10_renormalise_standardises_witness :
    ∃ t, renormalise Real.sqrt 2 ⟨[0, 2], [0, 0], 0⟩ = some t ∧
      t.samples_dbl = ([0, 2] : List ℝ).map (fun x =>
        (x - gsl_stats_mean ([0, 2] : List ℝ) 2) / gsl_stats_sd Real.sqrt ([0, 2] : List ℝ) 2) ∧
      gsl_stats_mean t.samples_dbl 2 = 0 ∧
      gsl_stats_sd Real.sqrt t.samples_dbl 2 = 1 ∧
      t.samples_abs.length = 2 ∧
      (∀ i, i < 2 → t.samples_abs[i]? = t.samples_dbl[i]?.map (fun x => |x|)) :=
  C10_renormalise_standardises 2 ⟨[0, 2], [0, 0], 0⟩ (by decide) (by simp) (by simp)
    (by
      have h : gsl_stats_sd Real.sqrt ([0, 2] : List ℝ) 2 = Real.sqrt 2 := by
        norm_num [gsl_stats_sd, gsl_stats_mean]
      simp only [h]
      exact ne_of_gt (Real.sqrt_pos.mpr (by norm_num)))

/-! ## Pink path into the normaliser -/

section PinkRange

variable {α : Type} [LinearOrderedField α]

/-- Whenever the pink generator returns on blocks of `N` cells, `samples_dbl`
still has `N` cells and `samples_abs` holds their absolute values. -/
theorem pink_abs_spec (sqrt : α → α) (gauss : Nat → α → α) (fwd inv : List α → List α)
    (fft : Nat → α) (N : Nat) (s g : Gen α)
    (hd : s.samples_dbl.length = N) (ha : s.samples_abs.length = N)
    (h : pink sqrt gauss fwd inv fft N s = some g) :
    g.samples_dbl.length = N ∧ g.samples_abs = g.samples_dbl.map (fun x => |x|) := by
  simp only [pink, Option.bind_eq_bind, Option.bind_eq_some] at h
  obtain ⟨s1, h1, z0, -, z1, -, s2, h2, h3⟩ := h
  have q1 : s1.samples_dbl.length = N ∧ s1.samples_abs.length = N :=
    forLoop_preserves (pinkDrawStep gauss)
      (fun t => t.samples_dbl.length = N ∧ t.samples_abs.length = N)
      (fun i a b hab hstep => by
        simp only [pinkDrawStep, wr, Option.bind_eq_bind, Option.bind_eq_some] at hstep
        obtain ⟨dbl, hdbl, hb⟩ := hstep
        split at hdbl
        · cases hdbl
          cases hb
          simpa using hab
        · cases hdbl)
      N 0 s s1 ⟨hd, ha⟩ h1
  have q2 : s2.samples_dbl.length = N ∧ s2.samples_abs.length = N :=
    forLoop_preserves (unpackStep (inv z1))
      (fun t => t.samples_dbl.length = N ∧ t.samples_abs.length = N)
      (fun i a b hab hstep => by
        simp only [unpackStep, wr, Option.bind_eq_bind, Option.bind_eq_some] at hstep
        obtain ⟨x, -, dbl, hdbl, hb⟩ := hstep
        split at hdbl
        · cases hdbl
          cases hb
          simpa using hab
        · cases hdbl)
      N 0 s1 s2 q1 h2
  obtain ⟨t, ht, htd, hta, habs, -⟩ := renormLoop_spec (gsl_stats_mean s2.samples_dbl N)
    (gsl_stats_sd sqrt s2.samples_dbl N) N s2 q2.1 q2.2
  have hg : g = t := by
    unfold renormalise at h3
    rw [ht] at h3
    exact (Option.some.inj h3).symm
  subst hg
  have hlen : g.samples_dbl.length = N := by rw [htd]; simp [q2.1]
  refine ⟨hlen, ?_⟩
  apply List.ext_getElem?
  intro k
  by_cases hk : k < N
  · rw [List.getElem?_map]
    exact habs k hk
  · have a : g.samples_abs.length ≤ k := by omega
    have b : (g.samples_dbl.map (fun x => |x|)).length ≤ k := by simp; omega
    rw [List.getElem?_eq_none a, List.getElem?_eq_none b]

/-- Supporting fact: on the pink path, when the generator returns a buffer with
a nonzero sample and the narrowing is exact, the pipeline returns output values
that all lie in [-1, 1]. -/
theorem pink_pipeline_in_range (sqrt : α → α) (toFloat : α → FloatVal α)
    (gauss : Nat → α → α) (fwd inv : List α → List α) (heap : Heap α) (srate : Int)
    (N : Nat) (g : Gen α)
    (hg : generate sqrt gauss fwd inv heap 1 srate N = some g)
    (h : ∃ x ∈ g.samples_dbl, x ≠ 0)
    (hexact : ∀ x, toFloat x = FloatVal.finite x) :
    ∃ y : List α, pipeline sqrt toFloat gauss fwd inv heap 1 srate N =
        some (y.map FloatVal.finite) ∧
      ∀ v ∈ y, -1 ≤ v ∧ v ≤ 1 := by
  have hp : pink sqrt gauss fwd inv heap.fft N ⟨malloc heap.dbl N, malloc heap.abs N, 0⟩
      = some g := by
    simpa [generate] using hg
  obtain ⟨hlen, habs⟩ := pink_abs_spec sqrt gauss fwd inv heap.fft N _ g
    (malloc_length _ _) (malloc_length _ _) hp
  obtain ⟨gd, ga, gc⟩ := g
  simp only at hlen habs h
  subst habs
  obtain ⟨y, hy, -, hrange⟩ := normalise_in_range toFloat heap.out gc gd h
    (fun m _ _ x _ => ⟨hexact x, hexact _⟩)
  rw [hlen] at hy
  refine ⟨y, ?_, hrange⟩
  simp [pipeline, hg, hy]

end PinkRange

end NoiseMachine
